import Mathlib

/-!
Verification of the detection-metrics core of `src/task1/main.py`
(MetricComputer, APIntegrator, ResultSelector).

Modelling conventions:
* Python floats are modelled by `ℚ` (all arithmetic in the program is
  exact on the rationals: guarded divisions, products, sums).
* `TP`, `FP`, `FN` are non-negative integers, modelled by `ℕ`.
* Python tuples `(conf_thresh, TP, FP, FN)` and
  `(conf_thresh, recall, precision, f1_score)` become structures.
* `np.argsort(recalls)` is modelled as a stable sort of the index list
  `[0, …, n-1]` ordered by the corresponding recall values
  (`List.insertionSort`, which is stable); numpy's fancy indexing
  `recalls[sorted_indices]` becomes a `map` over the sorted indices.
* Python's `max(iterable, key=k)` (first maximal element wins, raises
  `ValueError` on an empty iterable) is modelled by `pymax`, which
  returns `Option` (`none` models the raised error).
* Python's insertion-ordered `dict` accumulating per-resolution results
  is modelled by an association list `List (ℕ × ResolutionSummary)`.
-/

/-- A parsed input line `conf_thresh=…, TP=…, FP=…, FN=…`
(the tuple appended by `read_file`). -/
structure DetectionRecord where
  conf_thresh : ℚ
  TP : ℕ
  FP : ℕ
  FN : ℕ
deriving DecidableEq

/-- A tuple `(conf_thresh, recall, precision, f1_score)` produced by
`calculate_metrics`. -/
structure MetricTuple where
  conf_thresh : ℚ
  «recall» : ℚ
  precision : ℚ
  f1_score : ℚ
deriving DecidableEq

/-- Embeds `calculate_metrics` from `src/task1/main.py`: each record is
mapped independently to `(conf_thresh, recall, precision, f1_score)`
with zero-guards on every division. -/
def calculate_metrics (data : List DetectionRecord) : List MetricTuple :=
  data.map fun d =>
    let «recall» : ℚ := if d.TP + d.FN > 0 then (d.TP : ℚ) / ((d.TP : ℚ) + (d.FN : ℚ)) else 0
    let precision : ℚ := if d.TP + d.FP > 0 then (d.TP : ℚ) / ((d.TP : ℚ) + (d.FP : ℚ)) else 0
    let f1_score : ℚ :=
      if precision + «recall» > 0 then 2 * (precision * «recall») / (precision + «recall») else 0
    { conf_thresh := d.conf_thresh, «recall» := «recall», precision := precision,
      f1_score := f1_score }

/-- The accumulation loop of `calculate_ap`:
`for i in range(len(recalls)): ap += (recalls[i] - prev_recall) * precisions[i];
prev_recall = recalls[i]`, over the (recall, precision) pairs in order. -/
def apGo (ap prev : ℚ) : List (ℚ × ℚ) → ℚ
  | [] => ap
  | (r, p) :: rest => apGo (ap + (r - prev) * p) r rest

/-- Embeds `calculate_ap` from `src/task1/main.py`: extract the parallel
`recalls` and `precisions` arrays, argsort by recall
(`np.argsort` modelled as a stable index sort), reindex both arrays by
the sorted indices, then run the accumulation loop starting from
`ap = 0`, `prev_recall = 0`. -/
def calculate_ap (results : List MetricTuple) : ℚ :=
  let recalls := results.map fun r => r.«recall»
  let precisions := results.map fun r => r.precision
  let sorted_indices :=
    List.insertionSort (fun i j => recalls.getD i 0 ≤ recalls.getD j 0)
      (List.range results.length)
  let recalls2 := sorted_indices.map fun i => recalls.getD i 0
  let precisions2 := sorted_indices.map fun i => precisions.getD i 0
  apGo 0 0 (recalls2.zip precisions2)

/-- Joint order on (recall, precision) pairs: ascending recall. -/
def lePair (p q : ℚ × ℚ) : Prop := p.1 ≤ q.1

instance : DecidableRel lePair := fun p q => inferInstanceAs (Decidable (p.1 ≤ q.1))

instance : IsTotal (ℚ × ℚ) lePair := ⟨fun p q => le_total p.1 q.1⟩

instance : IsTrans (ℚ × ℚ) lePair := ⟨fun _ _ _ h h' => le_trans h h'⟩

/-- Modelled from the spec's words (§4.2 APIntegrator): extract the
(recall, precision) pairs in input order, jointly stable-sort them by
ascending recall (precision values follow their recall), then sum
`(recall_i - prev_recall) * precision_i` with `prev_recall` starting
at 0 and updated after each point. -/
def average_precision_spec (tuples : List MetricTuple) : ℚ :=
  apGo 0 0 (List.insertionSort lePair (tuples.map fun t => (t.«recall», t.precision)))

/-- Models Python's `max(iterable, key=key)`: fold keeping the current
best, replaced only when a strictly greater key appears (so the first
maximal element wins); `none` models the `ValueError` raised on an
empty iterable. -/
def pymax {α : Type} (key : α → ℚ) : List α → Option α
  | [] => none
  | x :: xs => some (xs.foldl (fun best y => if key best < key y then y else best) x)

/-- Embeds `best_threshold = max(results, key=lambda x: x[3])`
(`main`, src/task1/main.py line 78): best tuple by F1-score. -/
def best_by_f1 (results : List MetricTuple) : Option MetricTuple :=
  pymax (fun t => t.f1_score) results

/-- The per-resolution entry `{'ap': …, 'best_threshold': …}` stored in
`final_results`. -/
structure ResolutionSummary where
  ap : ℚ
  best_threshold : MetricTuple
deriving DecidableEq

/-- Embeds `best_size = max(final_results, key=lambda size:
final_results[size]['ap'])` (`main`, src/task1/main.py line 87): the
insertion-ordered dict is an association list, and Python's `max` over
the dict iterates its keys in insertion order looking the `ap` up. -/
def best_size (final_results : List (ℕ × ResolutionSummary)) : Option ℕ :=
  (pymax (fun kv => kv.2.ap) final_results).map Prod.fst

/-- Modelled from the spec's words (§4.1 MetricComputer): the per-record
formulas with zero-guards, each field written as a standalone guarded
quotient (f1 in terms of the computed precision and recall). -/
def compute_record_spec (d : DetectionRecord) : MetricTuple :=
  { conf_thresh := d.conf_thresh,
    «recall» := if d.TP + d.FN > 0 then (d.TP : ℚ) / ((d.TP : ℚ) + (d.FN : ℚ)) else 0,
    precision := if d.TP + d.FP > 0 then (d.TP : ℚ) / ((d.TP : ℚ) + (d.FP : ℚ)) else 0,
    f1_score :=
      if (if d.TP + d.FP > 0 then (d.TP : ℚ) / ((d.TP : ℚ) + (d.FP : ℚ)) else 0) +
           (if d.TP + d.FN > 0 then (d.TP : ℚ) / ((d.TP : ℚ) + (d.FN : ℚ)) else 0) > 0 then
        2 * ((if d.TP + d.FP > 0 then (d.TP : ℚ) / ((d.TP : ℚ) + (d.FP : ℚ)) else 0) *
             (if d.TP + d.FN > 0 then (d.TP : ℚ) / ((d.TP : ℚ) + (d.FN : ℚ)) else 0)) /
          ((if d.TP + d.FP > 0 then (d.TP : ℚ) / ((d.TP : ℚ) + (d.FP : ℚ)) else 0) +
           (if d.TP + d.FN > 0 then (d.TP : ℚ) / ((d.TP : ℚ) + (d.FN : ℚ)) else 0))
      else 0 }

/-- The spec's cross-resolution example: summaries with AP 0.6, 0.75,
0.75 for resolutions 512, 608, 800 inserted in that order. -/
def example_summaries : List (ℕ × ResolutionSummary) :=
  [(512, ⟨3/5, ⟨0, 0, 0, 0⟩⟩), (608, ⟨3/4, ⟨0, 0, 0, 0⟩⟩), (800, ⟨3/4, ⟨0, 0, 0, 0⟩⟩)]

/-- The metric tuples of the spec's worked scenario (§8). -/
def worked_tuples : List MetricTuple :=
  [⟨1/10, 4/5, 4/5, 4/5⟩, ⟨1/2, 1/2, 5/6, 5/8⟩, ⟨9/10, 1/5, 1, 1/3⟩]

/-! ### Helper lemmas -/

/-- The indexed pair extraction over `[0, …, n-1]` is just the list of
(recall, precision) pairs in input order. -/
lemma range_map_pair (results : List MetricTuple) :
    (List.range results.length).map
      (fun i => ((results.map fun r => r.«recall»).getD i 0,
                 (results.map fun r => r.precision).getD i 0)) =
    results.map fun t => (t.«recall», t.precision) := by
  apply List.ext_getElem
  · simp
  · intro i h1 h2
    simp only [List.getElem_map, List.getElem_range]
    rw [List.getD_eq_getElem _ _ (by simpa using h2), List.getD_eq_getElem _ _ (by simpa using h2)]
    simp

/-- The argsort-and-reindex formulation of `calculate_ap` agrees with the
joint stable sort of the (recall, precision) pairs. -/
lemma calculate_ap_eq_spec (results : List MetricTuple) :
    calculate_ap results = average_precision_spec results := by
  unfold calculate_ap average_precision_spec
  dsimp only
  rw [List.zip_map']
  apply congrArg
  have h := List.map_insertionSort
    (r := fun i j => (results.map fun r => r.«recall»).getD i 0 ≤
                     (results.map fun r => r.«recall»).getD j 0)
    (s := lePair)
    (f := fun i => ((results.map fun r => r.«recall»).getD i 0,
                    (results.map fun r => r.precision).getD i 0))
    (List.range results.length) (fun a _ b _ => by exact Iff.rfl)
  rw [h, range_map_pair]

/-- The loop accumulator separates off additively. -/
lemma apGo_add (l : List (ℚ × ℚ)) :
    ∀ ap prev : ℚ, apGo ap prev l = ap + apGo 0 prev l := by
  induction l with
  | nil => intro ap prev; simp [apGo]
  | cons hd tl ih =>
    intro ap prev
    obtain ⟨r, p⟩ := hd
    simp only [apGo]
    rw [ih (ap + (r - prev) * p) r, ih (0 + (r - prev) * p) r]
    ring

/-- Over a recall-sorted pair list whose recalls lie in `[prev, 1]` and
whose precisions lie in `[0, 1]`, the loop value lies in `[0, 1 - prev]`. -/
lemma apGo_nonneg_le (l : List (ℚ × ℚ)) :
    ∀ prev : ℚ, prev ≤ 1 → l.Pairwise lePair →
      (∀ q ∈ l, prev ≤ q.1 ∧ q.1 ≤ 1 ∧ 0 ≤ q.2 ∧ q.2 ≤ 1) →
      0 ≤ apGo 0 prev l ∧ apGo 0 prev l ≤ 1 - prev := by
  induction l with
  | nil =>
    intro prev hprev _ _
    constructor
    · simp [apGo]
    · simp [apGo]; linarith
  | cons hd tl ih =>
    intro prev _ hpw hmem
    obtain ⟨r, p⟩ := hd
    obtain ⟨hpr, hr1, hp0, hp1⟩ := hmem (r, p) (List.mem_cons_self _ _)
    have hpw' : tl.Pairwise lePair := hpw.of_cons
    have hhead : ∀ q ∈ tl, lePair (r, p) q := fun q hq => List.rel_of_pairwise_cons hpw hq
    have hmem' : ∀ q ∈ tl, r ≤ q.1 ∧ q.1 ≤ 1 ∧ 0 ≤ q.2 ∧ q.2 ≤ 1 := by
      intro q hq
      obtain ⟨_, h1, h2, h3⟩ := hmem q (List.mem_cons_of_mem _ hq)
      exact ⟨hhead q hq, h1, h2, h3⟩
    obtain ⟨ih0, ih1⟩ := ih r hr1 hpw' hmem'
    simp only [apGo]
    rw [apGo_add]
    constructor
    · nlinarith
    · nlinarith

/-- The Python `max(..., key=...)` fold returns either the initial best
(when nothing in the list strictly exceeds it) or the first element of
the list that strictly exceeds the initial best and is not strictly
exceeded later. -/
lemma pymax_go_spec {α : Type} (key : α → ℚ) (l : List α) :
    ∀ best : α,
      ∃ m, l.foldl (fun b y => if key b < key y then y else b) best = m ∧
        ((m = best ∧ ∀ y ∈ l, key y ≤ key best) ∨
          ∃ l₁ l₂, l = l₁ ++ m :: l₂ ∧ key best < key m ∧
            (∀ y ∈ l₁, key y < key m) ∧ (∀ y ∈ l₂, key y ≤ key m)) := by
  induction l with
  | nil => intro best; exact ⟨best, rfl, Or.inl ⟨rfl, by simp⟩⟩
  | cons y t ih =>
    intro best
    simp only [List.foldl_cons]
    by_cases hy : key best < key y
    · rw [if_pos hy]
      obtain ⟨m, hm, hcase⟩ := ih y
      refine ⟨m, hm, ?_⟩
      rcases hcase with ⟨he, hall⟩ | ⟨l₁, l₂, heq, hlt, hpre, hsuf⟩
      · subst he
        exact Or.inr ⟨[], t, by simp, hy, by simp, hall⟩
      · refine Or.inr ⟨y :: l₁, l₂, by rw [heq]; simp, hy.trans hlt, ?_, hsuf⟩
        intro z hz
        rcases List.mem_cons.mp hz with rfl | hz'
        · exact hlt
        · exact hpre z hz'
    · rw [if_neg hy]
      have hyb : key y ≤ key best := not_lt.mp hy
      obtain ⟨m, hm, hcase⟩ := ih best
      refine ⟨m, hm, ?_⟩
      rcases hcase with ⟨he, hall⟩ | ⟨l₁, l₂, heq, hlt, hpre, hsuf⟩
      · refine Or.inl ⟨he, ?_⟩
        intro z hz
        rcases List.mem_cons.mp hz with rfl | hz'
        · exact hyb
        · exact hall z hz'
      · refine Or.inr ⟨y :: l₁, l₂, by rw [heq]; simp, hlt, ?_, hsuf⟩
        intro z hz
        rcases List.mem_cons.mp hz with rfl | hz'
        · exact hyb.trans_lt hlt
        · exact hpre z hz'

/-- On a non-empty list, `pymax` returns the first element attaining the
maximal key: the list splits into a strictly smaller prefix, the result,
and a suffix of no larger keys. -/
lemma pymax_spec {α : Type} (key : α → ℚ) (l : List α) (h : l ≠ []) :
    ∃ m l₁ l₂, pymax key l = some m ∧ l = l₁ ++ m :: l₂ ∧
      (∀ y ∈ l₁, key y < key m) ∧ (∀ y ∈ l, key y ≤ key m) := by
  match l, h with
  | x :: xs, _ =>
    obtain ⟨m, hm, hcase⟩ := pymax_go_spec key xs x
    rcases hcase with ⟨he, hall⟩ | ⟨l₁, l₂, heq, hlt, hpre, hsuf⟩
    · subst he
      refine ⟨m, [], xs, by simp [pymax, hm], by simp, by simp, ?_⟩
      intro z hz
      rcases List.mem_cons.mp hz with rfl | hz'
      · exact le_refl _
      · exact hall z hz'
    · refine ⟨m, x :: l₁, l₂, by simp [pymax, hm], by rw [heq]; simp, ?_, ?_⟩
      · intro z hz
        rcases List.mem_cons.mp hz with rfl | hz'
        · exact hlt
        · exact hpre z hz'
      · intro z hz
        rcases List.mem_cons.mp hz with rfl | hz'
        · exact hlt.le
        · rw [heq] at hz'
          rcases List.mem_append.mp hz' with hz1 | hz2
          · exact (hpre z hz1).le
          · rcases List.mem_cons.mp hz2 with rfl | hz3
            · exact le_refl _
            · exact hsuf z hz3

/-- Two pair lists that are permutations of each other, both sorted by
ascending first component, and in which pairs with equal first component
also have equal second component, sort to the same list. -/
lemma insertionSort_eq_of_perm (P₁ P₂ : List (ℚ × ℚ)) (hperm : P₁.Perm P₂)
    (hcompat : ∀ p ∈ P₁, ∀ q ∈ P₁, p.1 = q.1 → p = q) :
    List.insertionSort lePair P₁ = List.insertionSort lePair P₂ := by
  have hs₁ := List.sorted_insertionSort lePair P₁
  have hs₂ := List.sorted_insertionSort lePair P₂
  have hp : (List.insertionSort lePair P₁).Perm (List.insertionSort lePair P₂) :=
    (List.perm_insertionSort lePair P₁).trans
      (hperm.trans (List.perm_insertionSort lePair P₂).symm)
  haveI : IsAntisymm (ℚ × ℚ) (fun p q => p.1 < q.1 ∨ p = q) := by
    constructor
    rintro a b (h1 | h1) (h2 | h2)
    · exact absurd h2 (lt_asymm h1)
    · rw [h2] at h1; exact absurd h1 (lt_irrefl _)
    · exact h1
    · exact h1
  have hcompat₂ : ∀ p ∈ P₂, ∀ q ∈ P₂, p.1 = q.1 → p = q := by
    intro p hp' q hq'
    exact hcompat p (hperm.mem_iff.mpr hp') q (hperm.mem_iff.mpr hq')
  have hs₁' : (List.insertionSort lePair P₁).Sorted (fun p q => p.1 < q.1 ∨ p = q) := by
    refine hs₁.imp_of_mem ?_
    intro a b ha hb hle
    exact (lt_or_eq_of_le hle).imp id
      (hcompat a ((List.mem_insertionSort lePair).mp ha) b ((List.mem_insertionSort lePair).mp hb))
  have hs₂' : (List.insertionSort lePair P₂).Sorted (fun p q => p.1 < q.1 ∨ p = q) := by
    refine hs₂.imp_of_mem ?_
    intro a b ha hb hle
    exact (lt_or_eq_of_le hle).imp id
      (hcompat₂ a ((List.mem_insertionSort lePair).mp ha) b ((List.mem_insertionSort lePair).mp hb))
  exact List.eq_of_perm_of_sorted hp hs₁' hs₂'

/-- A guarded quotient of a count by a sum of counts lies in `[0, 1]`. -/
lemma guarded_ratio_bounds (a b : ℕ) :
    0 ≤ (if a + b > 0 then (a : ℚ) / ((a : ℚ) + (b : ℚ)) else 0) ∧
    (if a + b > 0 then (a : ℚ) / ((a : ℚ) + (b : ℚ)) else 0) ≤ 1 := by
  split_ifs with h
  · have hpos : (0 : ℚ) < (a : ℚ) + (b : ℚ) := by exact_mod_cast h
    constructor
    · positivity
    · rw [div_le_one hpos]
      have : (0 : ℚ) ≤ (b : ℚ) := by positivity
      linarith
  · norm_num

/-- The guarded harmonic mean of two values in `[0, 1]` lies in `[0, 1]`. -/
lemma guarded_f1_bounds (p r : ℚ) (hp0 : 0 ≤ p) (hp1 : p ≤ 1) (hr0 : 0 ≤ r) (hr1 : r ≤ 1) :
    0 ≤ (if p + r > 0 then 2 * (p * r) / (p + r) else 0) ∧
    (if p + r > 0 then 2 * (p * r) / (p + r) else 0) ≤ 1 := by
  split_ifs with h
  · constructor
    · positivity
    · rw [div_le_one h]
      nlinarith
  · norm_num

/-! ### Claims -/

/-- C1: `calculate_ap` jointly stable-sorts the parallel recall and
precision arrays by ascending recall (precision values following their
recall's reordering) and returns the sum, in ascending-recall order, of
`(recall_i - prev_recall) * precision_i` with `prev_recall` starting at
0 and updated to `recall_i` after each point — i.e. it equals the
spec-worded `average_precision_spec` on every input. -/
theorem ap_integration_refines_spec (results : List MetricTuple) :
    calculate_ap results = average_precision_spec results :=
  calculate_ap_eq_spec results

/-- C2: `calculate_metrics` maps each record independently to the tuple
given by the guarded formulas (recall = TP/(TP+FN) when TP+FN > 0 else
0, precision = TP/(TP+FP) when TP+FP > 0 else 0, f1 =
2·precision·recall/(precision+recall) when precision+recall > 0 else 0),
and a record with TP = FP = FN = 0 yields recall = 0, precision = 0,
f1 = 0 with no division error. -/
theorem calculate_metrics_per_record_formulas (data : List DetectionRecord) :
    calculate_metrics data = data.map compute_record_spec ∧
    (∀ d : DetectionRecord, d.TP = 0 → d.FP = 0 → d.FN = 0 →
      calculate_metrics [d] =
        [{ conf_thresh := d.conf_thresh, «recall» := 0, precision := 0, f1_score := 0 }]) := by
  constructor
  · simp [calculate_metrics, compute_record_spec]
  · intro d h1 h2 h3
    simp [calculate_metrics, h1, h2, h3]

theorem calculate_metrics_per_record_formulas_witness :
    calculate_metrics [⟨1/4, 0, 0, 0⟩] = [⟨1/4, 0, 0, 0⟩] :=
  (calculate_metrics_per_record_formulas [⟨1/4, 0, 0, 0⟩]).2 ⟨1/4, 0, 0, 0⟩ rfl rfl rfl

/-- C3 (counterexample): `calculate_ap` is NOT invariant under
permutation when duplicate recall values carry different precisions:
the two orderings of the tied pairs (recall ½, precision 1) and
(recall ½, precision 0) are permutations of each other yet give AP ½
and AP 0 respectively. -/
theorem ap_permutation_counterexample :
    (([⟨0, 1/2, 1, 0⟩, ⟨0, 1/2, 0, 0⟩] : List MetricTuple).Perm
      [⟨0, 1/2, 0, 0⟩, ⟨0, 1/2, 1, 0⟩]) ∧
    calculate_ap [⟨0, 1/2, 1, 0⟩, ⟨0, 1/2, 0, 0⟩] ≠
      calculate_ap [⟨0, 1/2, 0, 0⟩, ⟨0, 1/2, 1, 0⟩] := by
  constructor
  · exact List.Perm.swap _ _ _
  · norm_num [calculate_ap, apGo, List.insertionSort, List.orderedInsert]

/-- C3 (amended): `calculate_ap` is invariant under any permutation of
the input provided tuples with equal recall also have equal precision
(in particular whenever the recall values are pairwise distinct). -/
theorem ap_permutation_invariant_of_tie_compatible (l₁ l₂ : List MetricTuple)
    (hperm : l₁.Perm l₂)
    (hcompat : ∀ a ∈ l₁, ∀ b ∈ l₁, a.«recall» = b.«recall» → a.precision = b.precision) :
    calculate_ap l₁ = calculate_ap l₂ := by
  rw [calculate_ap_eq_spec, calculate_ap_eq_spec]
  unfold average_precision_spec
  apply congrArg
  apply insertionSort_eq_of_perm
  · exact hperm.map _
  · intro p hp q hq h1
    simp only [List.mem_map] at hp hq
    obtain ⟨a, ha, rfl⟩ := hp
    obtain ⟨b, hb, rfl⟩ := hq
    simp only at h1 ⊢
    exact Prod.ext h1 (hcompat a ha b hb h1)

theorem ap_permutation_invariant_witness :
    calculate_ap [⟨0, 0, 1, 0⟩, ⟨0, 1, 1/2, 0⟩] = calculate_ap [⟨0, 1, 1/2, 0⟩, ⟨0, 0, 1, 0⟩] :=
  ap_permutation_invariant_of_tie_compatible _ _ (List.Perm.swap _ _ _) (by
    intro a ha b hb hab
    fin_cases ha <;> fin_cases hb <;> simp_all)

/-- C4: every tuple produced by `calculate_metrics` has recall,
precision and f1 in `[0, 1]`; and `calculate_ap` of any sequence whose
recalls and precisions lie in `[0, 1]` lies in `[0, 1]`. -/
theorem metrics_and_ap_bounds :
    (∀ (data : List DetectionRecord), ∀ m ∈ calculate_metrics data,
      0 ≤ m.«recall» ∧ m.«recall» ≤ 1 ∧ 0 ≤ m.precision ∧ m.precision ≤ 1 ∧
      0 ≤ m.f1_score ∧ m.f1_score ≤ 1) ∧
    (∀ (results : List MetricTuple),
      (∀ t ∈ results, 0 ≤ t.«recall» ∧ t.«recall» ≤ 1 ∧ 0 ≤ t.precision ∧ t.precision ≤ 1) →
      0 ≤ calculate_ap results ∧ calculate_ap results ≤ 1) := by
  constructor
  · intro data m hm
    simp only [calculate_metrics, List.mem_map] at hm
    obtain ⟨d, hd, rfl⟩ := hm
    dsimp only
    obtain ⟨hr0, hr1⟩ := guarded_ratio_bounds d.TP d.FN
    obtain ⟨hp0, hp1⟩ := guarded_ratio_bounds d.TP d.FP
    obtain ⟨hf0, hf1⟩ := guarded_f1_bounds _ _ hp0 hp1 hr0 hr1
    exact ⟨hr0, hr1, hp0, hp1, hf0, hf1⟩
  · intro results hb
    rw [calculate_ap_eq_spec]
    unfold average_precision_spec
    have hsorted := List.sorted_insertionSort lePair (results.map fun t => (t.«recall», t.precision))
    have hmem : ∀ q ∈ List.insertionSort lePair (results.map fun t => (t.«recall», t.precision)),
        (0 : ℚ) ≤ q.1 ∧ q.1 ≤ 1 ∧ 0 ≤ q.2 ∧ q.2 ≤ 1 := by
      intro q hq
      rw [List.mem_insertionSort] at hq
      simp only [List.mem_map] at hq
      obtain ⟨t, ht, rfl⟩ := hq
      obtain ⟨h1, h2, h3, h4⟩ := hb t ht
      exact ⟨h1, h2, h3, h4⟩
    have := apGo_nonneg_le _ 0 (by norm_num) hsorted hmem
    simpa using this

theorem metrics_and_ap_bounds_witness :
    (0 ≤ (⟨1/2, 1/2, 1/2, 1/2⟩ : MetricTuple).«recall» ∧
      (⟨1/2, 1/2, 1/2, 1/2⟩ : MetricTuple).«recall» ≤ 1 ∧
      0 ≤ (⟨1/2, 1/2, 1/2, 1/2⟩ : MetricTuple).precision ∧
      (⟨1/2, 1/2, 1/2, 1/2⟩ : MetricTuple).precision ≤ 1 ∧
      0 ≤ (⟨1/2, 1/2, 1/2, 1/2⟩ : MetricTuple).f1_score ∧
      (⟨1/2, 1/2, 1/2, 1/2⟩ : MetricTuple).f1_score ≤ 1) ∧
    (0 ≤ calculate_ap [⟨0, 1/2, 4/5, 0⟩] ∧ calculate_ap [⟨0, 1/2, 4/5, 0⟩] ≤ 1) :=
  ⟨metrics_and_ap_bounds.1 [⟨1/2, 1, 1, 1⟩] ⟨1/2, 1/2, 1/2, 1/2⟩ (by norm_num [calculate_metrics]),
   metrics_and_ap_bounds.2 [⟨0, 1/2, 4/5, 0⟩] (by norm_num)⟩

/-- C5: on a non-empty sequence, the best-by-F1 selection returns an
element of the sequence of maximal f1, and the first such element in
input order: the input splits into a prefix of strictly smaller f1, the
returned element, and a suffix of no larger f1. -/
theorem best_by_f1_first_max (results : List MetricTuple) (h : results ≠ []) :
    ∃ m l₁ l₂, best_by_f1 results = some m ∧ results = l₁ ++ m :: l₂ ∧
      (∀ y ∈ l₁, y.f1_score < m.f1_score) ∧ (∀ y ∈ results, y.f1_score ≤ m.f1_score) := by
  unfold best_by_f1
  exact pymax_spec (fun t => t.f1_score) results h

theorem best_by_f1_first_max_witness :
    ∃ m l₁ l₂,
      best_by_f1 worked_tuples = some m ∧ worked_tuples = l₁ ++ m :: l₂ ∧
      (∀ y ∈ l₁, y.f1_score < m.f1_score) ∧
      (∀ y ∈ worked_tuples, y.f1_score ≤ m.f1_score) :=
  best_by_f1_first_max worked_tuples (by simp [worked_tuples])

/-- C6: on a non-empty insertion-ordered summary mapping, the
best-resolution selection returns the key of an entry with maximal ap,
the first such entry in insertion order; in particular on the spec's
example {512 ↦ ap 0.6, 608 ↦ ap 0.75, 800 ↦ ap 0.75} it returns 608. -/
theorem best_size_first_max_ap :
    (∀ (final_results : List (ℕ × ResolutionSummary)), final_results ≠ [] →
      ∃ kv l₁ l₂, best_size final_results = some kv.1 ∧ final_results = l₁ ++ kv :: l₂ ∧
        (∀ e ∈ l₁, e.2.ap < kv.2.ap) ∧ (∀ e ∈ final_results, e.2.ap ≤ kv.2.ap)) ∧
    best_size example_summaries = some 608 := by
  constructor
  · intro l h
    obtain ⟨m, l₁, l₂, hm, heq, hpre, hall⟩ := pymax_spec (fun kv => kv.2.ap) l h
    exact ⟨m, l₁, l₂, by simp [best_size, hm], heq, hpre, hall⟩
  · norm_num [best_size, pymax, example_summaries]

theorem best_size_first_max_ap_witness :
    ∃ kv l₁ l₂,
      best_size example_summaries = some kv.1 ∧
      example_summaries = l₁ ++ kv :: l₂ ∧
      (∀ e ∈ l₁, e.2.ap < kv.2.ap) ∧
      (∀ e ∈ example_summaries, e.2.ap ≤ kv.2.ap) :=
  best_size_first_max_ap.1 example_summaries (by simp [example_summaries])

/-- C7: both selections fail explicitly on empty input — in the
embedding the raised `ValueError` of Python's `max` is the `none`
result, never a silently returned default element. -/
theorem empty_selection_fails : best_by_f1 [] = none ∧ best_size [] = none :=
  ⟨rfl, rfl⟩

/-- C8: `calculate_ap` does not raise on empty or singleton input: the
empty sequence gives 0, a single tuple gives recall · precision, and in
particular a single point with recall ½ and precision ⅘ gives AP ⅖. -/
theorem ap_empty_singleton :
    calculate_ap [] = 0 ∧
    (∀ t : MetricTuple, calculate_ap [t] = t.«recall» * t.precision) ∧
    calculate_ap [⟨0, 1/2, 4/5, 0⟩] = 2/5 := by
  refine ⟨by simp [calculate_ap, apGo], fun t => ?_,
    by norm_num [calculate_ap, apGo, List.insertionSort, List.orderedInsert]⟩
  simp [calculate_ap, apGo, List.insertionSort, List.orderedInsert, List.range_succ]

/-- C9: `calculate_metrics` returns one output tuple per input record
and passes the confidence threshold of record i through unchanged to
tuple i. -/
theorem calculate_metrics_preserves_length_and_conf (data : List DetectionRecord) :
    (calculate_metrics data).length = data.length ∧
    ∀ i, i < data.length →
      ((calculate_metrics data).getD i ⟨0, 0, 0, 0⟩).conf_thresh =
        (data.getD i ⟨0, 0, 0, 0⟩).conf_thresh := by
  constructor
  · simp [calculate_metrics]
  · intro i hi
    rw [List.getD_eq_getElem _ _ (by simpa [calculate_metrics] using hi),
        List.getD_eq_getElem _ _ hi]
    simp [calculate_metrics]

theorem calculate_metrics_preserves_length_and_conf_witness :
    0 < ([⟨1/10, 8, 2, 2⟩] : List DetectionRecord).length ∧
    ((calculate_metrics [⟨1/10, 8, 2, 2⟩]).getD 0 ⟨0, 0, 0, 0⟩).conf_thresh =
      (([⟨1/10, 8, 2, 2⟩] : List DetectionRecord).getD 0 ⟨0, 0, 0, 0⟩).conf_thresh :=
  ⟨by simp, (calculate_metrics_preserves_length_and_conf [⟨1/10, 8, 2, 2⟩]).2 0 (by simp)⟩

/-- C10: `calculate_ap` depends only on the recall and precision
components: two equal-length inputs agreeing position-wise on recall and
precision give the same AP, whatever their confidence thresholds and f1
values. -/
theorem ap_depends_only_on_recall_precision (l₁ l₂ : List MetricTuple)
    (hlen : l₁.length = l₂.length)
    (hagree : ∀ i, i < l₁.length →
      (l₁.getD i ⟨0, 0, 0, 0⟩).«recall» = (l₂.getD i ⟨0, 0, 0, 0⟩).«recall» ∧
      (l₁.getD i ⟨0, 0, 0, 0⟩).precision = (l₂.getD i ⟨0, 0, 0, 0⟩).precision) :
    calculate_ap l₁ = calculate_ap l₂ := by
  have hrec : l₁.map (fun r => r.«recall») = l₂.map (fun r => r.«recall») := by
    apply List.ext_getElem (by simp [hlen])
    intro i h1 h2
    simp only [List.getElem_map]
    have h1' : i < l₁.length := by simpa using h1
    have h2' : i < l₂.length := by simpa using h2
    have := (hagree i h1').1
    rwa [List.getD_eq_getElem _ _ h1', List.getD_eq_getElem _ _ h2'] at this
  have hprec : l₁.map (fun r => r.precision) = l₂.map (fun r => r.precision) := by
    apply List.ext_getElem (by simp [hlen])
    intro i h1 h2
    simp only [List.getElem_map]
    have h1' : i < l₁.length := by simpa using h1
    have h2' : i < l₂.length := by simpa using h2
    have := (hagree i h1').2
    rwa [List.getD_eq_getElem _ _ h1', List.getD_eq_getElem _ _ h2'] at this
  unfold calculate_ap
  dsimp only
  rw [hrec, hprec, hlen]

theorem ap_depends_only_on_recall_precision_witness :
    calculate_ap [⟨1, 1/2, 4/5, 7⟩] = calculate_ap [⟨2, 1/2, 4/5, 9⟩] :=
  ap_depends_only_on_recall_precision _ _ rfl (by
    intro i hi
    have : i = 0 := Nat.lt_one_iff.mp (by simpa using hi)
    subst this
    simp [List.getD])
